import Mathlib

/-!
# Verification of the `FormProperty` core of ngx-schema-form

Shallow embedding of `src/projects/schema-form/src/lib/model/formproperty.ts`
(the reactive property tree backing a JSON-schema-driven form) together with
proofs about the embedded operations.

Conventions:
* JavaScript `null` and `undefined` are distinguished wherever the source
  distinguishes them (strict equality `===` is strict there).
* The rxjs combinators used by the source (`BehaviorSubject`, `combineLatest`,
  `map`, `distinctUntilChanged`) are modelled by an explicit state machine in
  the `Visibility` section below; every modelling decision is documented at
  the definition it concerns.
-/

namespace FormPropertySpec

/-! ## Path resolution (`PropertyGroup.getProperty`, `FormProperty.searchProperty`)

The property tree: every node is a leaf or a group owning an association list
of named children (`properties`, line 298 of the source).  Node identities are
plain naturals so that distinct properties can be told apart. -/

inductive PropNode where
  | leaf (id : Nat)
  | group (id : Nat) (children : List (String × PropNode))

/-- The result of a JavaScript property lookup: `null`, `undefined`, or a
found `FormProperty`.  The source distinguishes `null` (loop guard
`result === null`, line 149) from `undefined` (a missing key of the
`properties` object), so the embedding must as well. -/
inductive JSRef where
  | jsNull
  | jsUndefined
  | found (p : PropNode)

/-- `this.properties[propertyId]` (line 304): a present key yields the child,
a missing key yields `undefined` (never `null`; the tree builder stores only
real child properties). -/
def lookupChild : List (String × PropNode) → String → JSRef
  | [], _ => JSRef.jsUndefined
  | (k, p) :: rest, key => if k = key then JSRef.found p else lookupChild rest key

/-- Worker for `PropertyGroup.getProperty` (lines 300-310).  The source takes
`propertyId` to be the segment before the first `/` (via `indexOf`/`substr`);
this worker accumulates that segment character by character in `idAcc`
(reversed).  On a slash it performs the lookup and, exactly as the guard
`property !== null && subPathIdx !== -1 && property instanceof PropertyGroup`
does, recurses into the remainder only when the hit is a group — a leaf, an
`undefined`, or a `null` hit is returned unchanged.  With no slash the whole
remaining path is looked up. -/
def getPropertyAux : List (String × PropNode) → List Char → List Char → JSRef
  | children, idAcc, [] => lookupChild children (String.mk idAcc.reverse)
  | children, idAcc, c :: rest =>
    if c = '/' then
      match lookupChild children (String.mk idAcc.reverse) with
      | JSRef.found (PropNode.group _ ch) => getPropertyAux ch [] rest
      | other => other
    else
      getPropertyAux children (c :: idAcc) rest

/-- `PropertyGroup.getProperty(path)` (lines 300-310), on the group's
children. -/
def getProperty (children : List (String × PropNode)) (path : List Char) : JSRef :=
  getPropertyAux children [] path

/-- The relative branch of `FormProperty.searchProperty` (lines 148-153):

    while (result === null && prop.parent !== null) {
      prop = base = prop.parent;
      result = base.getProperty(path);
    }
    return result;

`ancestors` lists the children of the calling property's ancestor groups,
nearest parent first, root last; the loop keeps climbing only while the
lookup result is strictly `null`. -/
def searchLoop : List (List (String × PropNode)) → List Char → JSRef
  | [], _ => JSRef.jsNull
  | g :: rest, path =>
    match getProperty g path with
    | JSRef.jsNull => searchLoop rest path
    | r => r

theorem lookupChild_ne_null (children : List (String × PropNode)) (key : String) :
    lookupChild children key ≠ JSRef.jsNull := by
  induction children with
  | nil => simp [lookupChild]
  | cons hd tl ih =>
    obtain ⟨k, p⟩ := hd
    simp only [lookupChild]
    split
    · simp
    · exact ih

theorem getPropertyAux_ne_null (path : List Char) :
    ∀ children idAcc, getPropertyAux children idAcc path ≠ JSRef.jsNull := by
  induction path with
  | nil =>
    intro children idAcc
    simpa [getPropertyAux] using lookupChild_ne_null children (String.mk idAcc.reverse)
  | cons c rest ih =>
    intro children idAcc
    simp only [getPropertyAux]
    split
    · cases h : lookupChild children (String.mk idAcc.reverse) with
      | jsNull => exact absurd h (lookupChild_ne_null _ _)
      | jsUndefined => simp
      | found p =>
        cases p with
        | leaf pid => simp
        | group pid ch => simpa using ih ch []
    · exact ih children (c :: idAcc)

/-- `getProperty` never evaluates to `null`: a miss is `undefined`.  This is
what makes the upward-walking loop of `searchProperty` degenerate. -/
theorem getProperty_ne_null (children : List (String × PropNode)) (path : List Char) :
    getProperty children path ≠ JSRef.jsNull :=
  getPropertyAux_ne_null path children []

/-- Consequence: from any property that has a parent, the relative search
returns whatever the immediate parent's lookup returns; higher ancestors are
never consulted. -/
theorem searchLoop_stops_at_parent (g : List (String × PropNode))
    (rest : List (List (String × PropNode))) (path : List Char) :
    searchLoop (g :: rest) path = getProperty g path := by
  simp only [searchLoop]
  rcases h : getProperty g path with _ | _ | p
  · exact absurd h (getProperty_ne_null g path)
  · rfl
  · rfl

/-- Concrete tree for the claim's own example: `root/group1` has children
`sibling` and `group2`, and `group2` has the single child `leaf`. -/
def g2Children : List (String × PropNode) := [("leaf", PropNode.leaf 1)]

def g1Children : List (String × PropNode) :=
  [("sibling", PropNode.leaf 99), ("group2", PropNode.group 2 g2Children)]

def rootChildren : List (String × PropNode) := [("group1", PropNode.group 3 g1Children)]

/-- **C1.** The spec's upward-fallback resolution does not happen in the
code: from the leaf at `group1/group2/leaf`, `searchProperty("sibling")`
computes `group2.getProperty("sibling")`, which is `undefined` (not `null`)
because `group2` has no such key, so the `result === null` loop guard fails
and the walk stops — the search returns `undefined` even though
`group1/sibling` exists and `getProperty` on `group1` would find it. -/
theorem searchProperty_no_ancestor_fallback :
    searchLoop [g2Children, g1Children, rootChildren] "sibling".data = JSRef.jsUndefined
      ∧ getProperty g1Children "sibling".data = JSRef.found (PropNode.leaf 99) := by
  exact ⟨rfl, rfl⟩

/-! ## Errors and validation (`_runValidation`, `mergeErrors`, `extendErrors`, `valid`)

The `_errors` field is either `null` or a JavaScript array of error
descriptors; it is modelled as `Option (List α)` with `none` for `null`,
`α` being the (opaque) descriptor type.  A custom validator's return value
can be `null`, `undefined`, a single descriptor, or a list (spec §6); the
four cases are kept apart because `mergeErrors` branches on them. -/

inductive CustomRes (α : Type) where
  | crNull
  | crUndefined
  | crSingle (e : α)
  | crList (es : List α)

/-- `FormProperty.mergeErrors(errors, newErrors)` (lines 119-128):

    if (newErrors) {
      if (Array.isArray(newErrors)) { errors = errors.concat(...newErrors); }
      else { errors.push(newErrors); }
    }
    return errors;

`null`/`undefined` are falsy, so they leave `errors` unchanged; an empty
array is truthy but spreads to nothing, so `crList []` also leaves `errors`
unchanged — which `errors ++ []` reproduces. -/
def mergeErrors {α : Type} (errors : List α) (newErrors : CustomRes α) : List α :=
  match newErrors with
  | CustomRes.crNull => errors
  | CustomRes.crUndefined => errors
  | CustomRes.crList es => errors ++ es
  | CustomRes.crSingle e => errors ++ [e]

/-- `FormProperty._runValidation()` (lines 104-117), as a function of its two
external inputs: the compiled schema validator's result on the current value
(`ErrorList | null`) and the registry's custom validator (absent, or present
with its result).  Returns the new `_errors` together with the list of
emissions on the `errorsChanges` stream produced by the call (`setErrors`,
lines 130-133, always calls `next`):

    let errors = this.schemaValidator(this._value) || [];
    let customValidator = this.validatorRegistry.get(this.path);
    if (customValidator) {
      let customErrors = customValidator(...);
      errors = this.mergeErrors(errors, customErrors);
    }
    if (errors.length === 0) { errors = null; }
    this._errors = errors;
    this.setErrors(this._errors);
-/
def runValidation {α : Type} (schemaResult : Option (List α))
    (custom : Option (CustomRes α)) : Option (List α) × List (Option (List α)) :=
  let errors := match schemaResult with
    | none => []
    | some l => l
  let merged := match custom with
    | none => errors
    | some cr => mergeErrors errors cr
  let final := if merged.isEmpty then none else some merged
  (final, [final])

/-- `FormProperty.extendErrors(errors)` (lines 135-138) as a function of the
current `_errors` and the argument; returns the new `_errors` and the
emissions of the call:

    errors = this.mergeErrors(this._errors || [], errors);
    this.setErrors(errors);

Note there is no empty-to-null normalization here: `setErrors` always
receives the merged array. -/
def extendErrors {α : Type} (curErrors : Option (List α)) (arg : CustomRes α) :
    Option (List α) × List (Option (List α)) :=
  let base := match curErrors with
    | none => []
    | some l => l
  let merged := mergeErrors base arg
  (some merged, [some merged])

/-- The `valid` getter (lines 68-70): `return this._errors === null`. -/
def valid {α : Type} (errors : Option (List α)) : Bool :=
  errors.isNone

/-- The invariant claimed by the spec (§3 / §8), stated from the spec's
words: `errors` is `null` or a non-empty sequence of descriptors. -/
def claimedErrorsInvariant {α : Type} (errors : Option (List α)) : Bool :=
  match errors with
  | none => true
  | some [] => false
  | some (_ :: _) => true

/-- **C3.** The null-or-non-empty invariant is not preserved by
`extendErrors`: called with `null` (likewise `undefined` or `[]`) on a
property whose `_errors` is `null`, the base `this._errors || []` is the
empty array, the merge leaves it empty, and `setErrors` stores and emits the
empty array `[]` — which is neither `null` nor non-empty, and makes `valid`
false although there is no error.  (`_runValidation`, by contrast, normalizes
an empty list to `null`, lines 111-113, showing the invariant is the code's
own intent.) -/
theorem extendErrors_breaks_errors_invariant :
    extendErrors (α := String) none CustomRes.crNull = (some [], [some []])
      ∧ valid (α := String) (some []) = false
      ∧ claimedErrorsInvariant (α := String) (some []) = false := by
  exact ⟨rfl, rfl, rfl⟩

/-- **C5.** Error merging in `_runValidation`: a schema result
`[{code:"required"}]` merged with a single custom error `{code:"custom"}`
yields the concatenation `[required, custom]` (and one emission of exactly
that value); a custom result that is a list is concatenated element-wise;
the merged list is normalized to `null` when empty (the stored `errors` is
never an empty list); and the `errorsChanges` stream emits the new value,
`null` included, unconditionally — exactly one emission per run. -/
theorem runValidation_merge_normalize_emit :
    (∀ (r c : String),
        runValidation (some [r]) (some (CustomRes.crSingle c))
          = (some [r, c], [some [r, c]]))
      ∧ (∀ (base es : List String), mergeErrors base (CustomRes.crList es) = base ++ es)
      ∧ (∀ (sch : Option (List String)) (cu : Option (CustomRes String)),
          (runValidation sch cu).2 = [(runValidation sch cu).1])
      ∧ (∀ (sch : Option (List String)) (cu : Option (CustomRes String)),
          claimedErrorsInvariant (runValidation sch cu).1 = true) := by
  have key : ∀ (l : List String), claimedErrorsInvariant (if l.isEmpty then none else some l) = true := by
    intro l
    cases l with
    | nil => rfl
    | cons x xs => rfl
  refine ⟨fun r c => rfl, fun base es => rfl, fun sch cu => rfl, fun sch cu => ?_⟩
  simp only [runValidation]
  exact key _

/-! ## Value/validity propagation (`updateValueAndValidity`, `setVisible`)

Properties are identified by naturals.  A call on a property is described by
its *chain*: the property itself followed by its strict ancestors, child to
parent, root last (the `parent` references of lines 27-33; the tree is
acyclic, so a chain is just a list).  The observable effects of a call are
recorded as an event log. -/

inductive Ev where
  | updValue (p : Nat)
  | emitValue (p : Nat)
  | runValidation (p : Nat)
  | emitErrors (p : Nat)
  | emitVisibility (p : Nat)
deriving DecidableEq, BEq

/-- `FormProperty.updateValueAndValidity(onlySelf, emitEvent)` (lines 76-89):

    this._updateValue();
    if (emitEvent) { this.valueChanges.next(this.value); }
    this._runValidation();
    if (this.parent && !onlySelf) {
      this.parent.updateValueAndValidity(onlySelf, emitEvent);
    }

`_runValidation` (lines 104-117) ends in `setErrors`, which emits on
`errorsChanges` unconditionally, hence the `runValidation`/`emitErrors` pair.
The recursive call happens exactly when the chain still has ancestors and
`onlySelf` is false. -/
def updateValueAndValidity : List Nat → Bool → Bool → List Ev
  | [], _, _ => []
  | p :: ancestors, onlySelf, emitEvent =>
    [Ev.updValue p]
      ++ (if emitEvent then [Ev.emitValue p] else [])
      ++ [Ev.runValidation p, Ev.emitErrors p]
      ++ (if !ancestors.isEmpty && !onlySelf then
            updateValueAndValidity ancestors onlySelf emitEvent
          else [])

/-- Modelled from the spec: `setValue` on a leaf is abstract in this file
(spec §4.1, "the setter is expected to call `updateValueAndValidity`
itself"); the model lets the bubbling itself be the source's
`updateValueAndValidity` with `emitEvent = true`. -/
def setValueLeaf (chain : List Nat) (onlySelf : Bool) : List Ev :=
  updateValueAndValidity chain onlySelf true

/-- `FormProperty.setVisible(visible)` (lines 165-172):

    this._visible = visible;
    this._visibilityChanges.next(visible);
    this.updateValueAndValidity();
    if (this.parent) { this.parent.updateValueAndValidity(false, true); }

The first `updateValueAndValidity()` uses the declaration defaults
`onlySelf = false, emitEvent = true` (line 76). -/
def setVisibleEvents : List Nat → List Ev
  | [] => []
  | p :: ancestors =>
    [Ev.emitVisibility p]
      ++ updateValueAndValidity (p :: ancestors) false true
      ++ (if ancestors.isEmpty then [] else updateValueAndValidity ancestors false true)

/-- The properties on which `updateValueAndValidity` executes during a call,
in execution order: each execution performs exactly one `_updateValue`. -/
def uvvVisits (log : List Ev) : List Nat :=
  log.filterMap fun e =>
    match e with
    | Ev.updValue p => some p
    | _ => none

/-- Occurrence count of one event in a log. -/
def countEv (e : Ev) (log : List Ev) : Nat :=
  (log.filter fun x => x = e).length

theorem countEv_append (e : Ev) (l1 l2 : List Ev) :
    countEv e (l1 ++ l2) = countEv e l1 + countEv e l2 := by
  simp [countEv, List.filter_append]

/-- With `onlySelf = false` the guard `this.parent && !onlySelf` is just the
existence of a parent, so the recursion runs down the whole chain. -/
theorem uvv_cons (p : Nat) (rest : List Nat) :
    updateValueAndValidity (p :: rest) false true
      = [Ev.updValue p, Ev.emitValue p, Ev.runValidation p, Ev.emitErrors p]
          ++ updateValueAndValidity rest false true := by
  cases rest <;> simp [updateValueAndValidity]

/-- The full event log of a non-`onlySelf` update, property by property. -/
theorem uvv_false_true_eq (chain : List Nat) :
    updateValueAndValidity chain false true
      = chain.flatMap fun p =>
          [Ev.updValue p, Ev.emitValue p, Ev.runValidation p, Ev.emitErrors p] := by
  induction chain with
  | nil => rfl
  | cons p rest ih => rw [uvv_cons, ih, List.flatMap_cons]

theorem uvvVisits_append (l1 l2 : List Ev) :
    uvvVisits (l1 ++ l2) = uvvVisits l1 ++ uvvVisits l2 := by
  simp [uvvVisits]

theorem uvvVisits_false_true (chain : List Nat) :
    uvvVisits (updateValueAndValidity chain false true) = chain := by
  induction chain with
  | nil => rfl
  | cons p rest ih =>
    rw [uvv_cons, uvvVisits_append, ih]
    simp [uvvVisits]

/-- **C6.** Setting a leaf's value with `onlySelf = false` runs
`updateValueAndValidity` on the leaf and then on every ancestor up to the
root, exactly once each, in child-to-parent order, skipping no level: the
visit sequence of the call is the chain itself. -/
theorem setValue_bubbles_once_per_ancestor (leaf : Nat) (ancestors : List Nat) :
    uvvVisits (setValueLeaf (leaf :: ancestors) false) = leaf :: ancestors :=
  uvvVisits_false_true (leaf :: ancestors)

/-- The ordering property claimed by the spec (§5), stated from the spec's
words: the property's value emission is delivered strictly after its
validation run in the event log. -/
def valueEmittedAfterValidation (p : Nat) (log : List Ev) : Bool :=
  decide (log.indexOf (Ev.runValidation p) < log.indexOf (Ev.emitValue p))

/-- **C7, counterexample.** In a plain `updateValueAndValidity` call with
`emitEvent = true` on a single property, the value notification (line 80) is
emitted *before* `_runValidation` (line 83), not after it: the claimed
"value after errors" ordering is false already for the one-property chain. -/
theorem value_emitted_before_validation_at_leaf :
    valueEmittedAfterValidation 0 (updateValueAndValidity [0] false true) = false := by
  rfl

/-- **C7, amended.** The actual order of every `updateValueAndValidity` call
with `emitEvent = true`, `onlySelf = false`: per property, update value, emit
value, run validation, emit errors — value notifications are delivered
strictly *before* that property's errors are recomputed — and only then does
the call propagate to the parent. -/
theorem uvv_step_order (chain : List Nat) :
    updateValueAndValidity chain false true
      = chain.flatMap fun p =>
          [Ev.updValue p, Ev.emitValue p, Ev.runValidation p, Ev.emitErrors p] :=
  uvv_false_true_eq chain

theorem countEv_block (q p : Nat) :
    countEv (Ev.updValue q)
        [Ev.updValue p, Ev.emitValue p, Ev.runValidation p, Ev.emitErrors p]
      = (if p = q then 1 else 0) := by
  by_cases h : p = q <;> simp [countEv, h]

theorem countEv_block_errors (q p : Nat) :
    countEv (Ev.emitErrors q)
        [Ev.updValue p, Ev.emitValue p, Ev.runValidation p, Ev.emitErrors p]
      = (if p = q then 1 else 0) := by
  by_cases h : p = q <;> simp [countEv, h]

theorem countEv_uvv_upd (q : Nat) (chain : List Nat) :
    countEv (Ev.updValue q) (updateValueAndValidity chain false true) = chain.count q := by
  induction chain with
  | nil => rfl
  | cons p rest ih =>
    rw [uvv_cons, countEv_append, ih, countEv_block, List.count_cons]
    by_cases h : p = q <;> simp [h, Nat.add_comm]

theorem countEv_uvv_errors (q : Nat) (chain : List Nat) :
    countEv (Ev.emitErrors q) (updateValueAndValidity chain false true) = chain.count q := by
  induction chain with
  | nil => rfl
  | cons p rest ih =>
    rw [uvv_cons, countEv_append, ih, countEv_block_errors, List.count_cons]
    by_cases h : p = q <;> simp [h, Nat.add_comm]

theorem countEv_setVisible (q p : Nat) (ancestors : List Nat) (h : ancestors ≠ []) :
    countEv (Ev.updValue q) (setVisibleEvents (p :: ancestors))
        = (p :: ancestors).count q + ancestors.count q
      ∧ countEv (Ev.emitErrors q) (setVisibleEvents (p :: ancestors))
        = (p :: ancestors).count q + ancestors.count q := by
  have hne : ancestors.isEmpty = false := by
    cases ancestors with
    | nil => exact absurd rfl h
    | cons a rest => rfl
  have hsve : setVisibleEvents (p :: ancestors)
      = [Ev.emitVisibility p] ++ (updateValueAndValidity (p :: ancestors) false true
          ++ updateValueAndValidity ancestors false true) := by
    simp [setVisibleEvents, hne]
  rw [hsve]
  constructor
  · rw [countEv_append, countEv_append, countEv_uvv_upd, countEv_uvv_upd]
    simp [countEv]
  · rw [countEv_append, countEv_append, countEv_uvv_errors, countEv_uvv_errors]
    simp [countEv]

/-- **C10.** A `setVisible` call on a non-root property (distinct properties
along the chain) runs `updateValueAndValidity` — and hence re-emits value and
errors — exactly once on the property itself, but exactly twice on each
strict ancestor: once through the property's own `updateValueAndValidity()`
bubbling (defaults `onlySelf = false`), and once more through the explicit
extra `this.parent.updateValueAndValidity(false, true)`. -/
theorem setVisible_double_updates_ancestors (p : Nat) (ancestors : List Nat)
    (hroot : ancestors ≠ []) (hnodup : (p :: ancestors).Nodup) :
    (countEv (Ev.updValue p) (setVisibleEvents (p :: ancestors)) = 1
        ∧ countEv (Ev.emitErrors p) (setVisibleEvents (p :: ancestors)) = 1)
      ∧ ∀ a ∈ ancestors,
          countEv (Ev.updValue a) (setVisibleEvents (p :: ancestors)) = 2
            ∧ countEv (Ev.emitErrors a) (setVisibleEvents (p :: ancestors)) = 2 := by
  have hpnot : p ∉ ancestors := by
    have := hnodup
    rw [List.nodup_cons] at this
    exact this.1
  have hanodup : ancestors.Nodup := by
    have := hnodup
    rw [List.nodup_cons] at this
    exact this.2
  constructor
  · have hc := countEv_setVisible p p ancestors hroot
    have hcount : (p :: ancestors).count p + ancestors.count p = 1 := by
      rw [List.count_cons_self, List.count_eq_zero.mpr hpnot]
    exact ⟨by rw [hc.1, hcount], by rw [hc.2, hcount]⟩
  · intro a ha
    have hne : p ≠ a := fun hpa => hpnot (hpa ▸ ha)
    have hc := countEv_setVisible a p ancestors hroot
    have hcount : (p :: ancestors).count a + ancestors.count a = 2 := by
      rw [List.count_cons_of_ne (fun hap => hne hap.symm) , List.count_eq_one_of_mem hanodup ha]
    exact ⟨by rw [hc.1, hcount], by rw [hc.2, hcount]⟩

/-- Witness for C10 on the concrete chain `0 / 1 / 2`. -/
theorem setVisible_double_updates_ancestors_witness :
    countEv (Ev.updValue 0) (setVisibleEvents [0, 1, 2]) = 1
      ∧ countEv (Ev.updValue 1) (setVisibleEvents [0, 1, 2]) = 2
      ∧ countEv (Ev.emitErrors 2) (setVisibleEvents [0, 1, 2]) = 2 := by
  have h := setVisible_double_updates_ancestors 0 [1, 2] (by decide) (by decide)
  exact ⟨h.1.1, (h.2 1 (by decide)).1, (h.2 2 (by decide)).2⟩

/-! ## Visibility binding (`_bindVisibility`, `__bindVisibility`, lines 174-293)

JavaScript values, as far as the visibility predicates inspect them:
`indexOf` membership uses strict equality `===`, and the `$ANY$` sentinel
branch reads `value.length`. -/

inductive JSVal where
  | vNull
  | vStr (s : String)
  | vNum (n : Int)
  | vBool (b : Bool)
  | vArr (elems : List JSVal)

/-- JavaScript strict equality `===`, restricted to the comparisons the
visibility code performs (a schema-literal allowed value against a runtime
value).  Two distinct object references are never `===`, so the array/array
case is `false`: an allowed-value literal is never the same reference as a
dependency's runtime value. -/
def jsStrictEq : JSVal → JSVal → Bool
  | JSVal.vNull, JSVal.vNull => true
  | JSVal.vStr a, JSVal.vStr b => a = b
  | JSVal.vNum a, JSVal.vNum b => a = b
  | JSVal.vBool a, JSVal.vBool b => a = b
  | _, _ => false

/-- `value.length > 0` (lines 208, 222, 272): strings and arrays have a
`length`; for numbers and booleans `value.length` is `undefined` and
`undefined > 0` is `false`.  (For `null` the JavaScript expression throws a
TypeError; that case is modelled as `false` here and is exercised by no
claim.) -/
def jsLengthPositive : JSVal → Bool
  | JSVal.vStr s => decide (0 < s.length)
  | JSVal.vArr es => decide (0 < es.length)
  | _ => false

/-- `visibleIf[dependencyPath].indexOf('$ANY$') !== -1` (lines 207, 221,
271): does the allowed-value list contain the sentinel string? -/
def containsSentinel (allowed : List JSVal) : Bool :=
  allowed.any fun a => jsStrictEq a (JSVal.vStr "$ANY$")

/-- The per-dependency membership predicate (lines 205-213 in the `oneOf`
pipeline, 215-232 inside `_chk`, 269-277 in the flat pipeline — the three
occurrences are textually identical):

    if (visibleIf[dependencyPath].indexOf('$ANY$') !== -1) {
      return value.length > 0;
    } else {
      return visibleIf[dependencyPath].indexOf(value) !== -1;
    }
-/
def memberCheck (allowed : List JSVal) (value : JSVal) : Bool :=
  if containsSentinel allowed then jsLengthPositive value
  else allowed.any fun a => jsStrictEq a value

/-- **C8.** With allowed-value list `["$ANY$"]` the per-dependency predicate
is true exactly when the dependency's value has non-zero length — for a
string or an array, true iff non-empty, false for the empty string or the
empty array, whatever the contents are. -/
theorem memberCheck_any_sentinel :
    (∀ s : String,
        memberCheck [JSVal.vStr "$ANY$"] (JSVal.vStr s) = decide (0 < s.length))
      ∧ ∀ es : List JSVal,
          memberCheck [JSVal.vStr "$ANY$"] (JSVal.vArr es) = decide (0 < es.length) := by
  constructor
  · intro s
    rfl
  · intro es
    rfl

/-! ### The reactive network as a state machine

`__bindVisibility` (lines 174-253) and the flat branch of `_bindVisibility`
(lines 256-293) build, per schema branch, the rxjs network

    per dependency d:   and_d = combineLatest([valueCheck_d, visibilityCheck_d],
                                              (v1, v2) => v1 && v2)
    per branch:         combineLatest(all and_d, values => values.indexOf(true) !== -1)
                          .pipe(distinctUntilChanged()).subscribe(v => this.setVisible(v))

The embedding models the exact operational behaviour of those combinators:

* `BehaviorSubject` (`valueChanges`, `_visibilityChanges`): last-value-cached;
  emits its current value synchronously on subscription, and on every `next`.
* `combineLatest`: caches the latest value of each input and re-emits the
  combined value whenever *one* input emits — the other inputs contribute
  their cached values.
* `distinctUntilChanged`: forwards an emission only when it differs from the
  previously forwarded one (the first is always forwarded).
* subscribers are notified synchronously in subscription order, i.e. in
  branch order.

State per branch subscription: the static branch (dependency path, allowed
list), whether the branch belongs to an `allOf` clause (then its value
predicate is the global `_chk`), the cached value of each `and_d`, and the
value last forwarded by `distinctUntilChanged`.  A step is one emission of a
dependency's `valueChanges` (its `_value` is assigned before `next` fires,
lines 76-81); dependency visibilities stay fixed during the scenarios, as
the cached value of a `_visibilityChanges` subject always equals the
dependency's current `_visible`. -/

/-- One schema branch: dependency path with its allowed-value list, in key
order. -/
abbrev Branch := List (String × List JSVal)

/-- The dependency environment: current `_value` and `_visible` of each
dependency property, as association lists.  A property's `_value` starts as
`null` (line 10) and `_visible` as `true` (line 14). -/
structure DepEnv where
  values : List (String × JSVal)
  vis : List (String × Bool)

def envVal (env : DepEnv) (d : String) : JSVal :=
  match env.values.find? (fun pr => pr.1 = d) with
  | some pr => pr.2
  | none => JSVal.vNull

def envVis (env : DepEnv) (d : String) : Bool :=
  match env.vis.find? (fun pr => pr.1 = d) with
  | some pr => pr.2
  | none => true

/-- Assigning a dependency's `_value` (the assignment precedes the
`valueChanges.next` that drives the network, lines 77-81). -/
def setVal (env : DepEnv) (d : String) (v : JSVal) : DepEnv :=
  { env with values := (d, v) :: env.values.filter fun pr => pr.1 ≠ d }

/-- `_chk` (lines 215-232): conjunction of the membership predicate over
every dependency of every `allOf` branch, reading each dependency's current
`_value` fresh (`prop._value`, line 219). -/
def chkAll (branches : List Branch) (env : DepEnv) : Bool :=
  branches.all fun item => item.all fun pr => memberCheck pr.2 (envVal env pr.1)

/-- One branch subscription of the network. -/
structure SubSt where
  entries : Branch
  useChk : Bool
  caches : List Bool
  lastEmitted : Option Bool

/-- Recomputation of one `and_d` when its dependency emits: the value
predicate (`memberCheck` on the streamed value for `oneOf`/flat pipelines,
`_chk` for `allOf`, lines 204-234 and 269-277) conjoined with the
dependency's own visibility (lines 235-236, 278-279). -/
def recomputeEntry (allB : List Branch) (useChk : Bool) (env : DepEnv)
    (entry : String × List JSVal) : Bool :=
  (if useChk then chkAll allB env else memberCheck entry.2 (envVal env entry.1))
    && envVis env entry.1

/-- The caches of a subscription after dependency `d` emits: only the
`and` streams fed by `d` recompute; the rest keep their cached value (that
is `combineLatest`'s caching). -/
def recomputeCaches (allB : List Branch) (env : DepEnv) (d : String) (sub : SubSt) :
    List Bool :=
  List.zipWith
    (fun e c => if e.1 = d then recomputeEntry allB sub.useChk env e else c)
    sub.entries sub.caches

/-- Does the subscription listen to dependency `d` at all?  If not, none of
its inputs emits and the branch's `combineLatest` stays silent. -/
def subAffected (d : String) (sub : SubSt) : Bool :=
  sub.entries.any fun e => e.1 = d

/-- The value the branch's outer `combineLatest` combines after `d` emits:
`values.indexOf(true) !== -1` over the cached `and` values (lines 244-245,
287-288). -/
def subOut (allB : List Branch) (env : DepEnv) (d : String) (sub : SubSt) : Bool :=
  (recomputeCaches allB env d sub).any id

/-- One subscription's reaction to an emission of dependency `d`: if
affected, recompute; `distinctUntilChanged` then forwards the combined value
to `setVisible` only when it differs from the previously forwarded one.
Returns the updated subscription and the forwarded value, if any. -/
def stepSub (allB : List Branch) (env : DepEnv) (d : String) (sub : SubSt) :
    SubSt × Option Bool :=
  if subAffected d sub then
    let caches' := recomputeCaches allB env d sub
    let out := caches'.any id
    if sub.lastEmitted = some out then
      ({ sub with caches := caches' }, none)
    else
      ({ sub with caches := caches', lastEmitted := some out }, some out)
  else (sub, none)

/-- The whole network state: the `allOf` branch list `_chk` iterates over
(empty for `oneOf`/flat clauses), the branch subscriptions in subscription
order, the property's `_visible`, the log of `setVisible`'s
`_visibilityChanges.next` emissions, and the dependency environment. -/
structure NetSt where
  allB : List Branch
  subs : List SubSt
  visible : Bool
  visLog : List Bool
  env : DepEnv

/-- Notify the subscriptions in order; every forwarded value runs
`setVisible` (lines 246-247, 289-290), which assigns `_visible` and emits on
the visibility stream (lines 165-167). -/
def processSubs (allB : List Branch) (env : DepEnv) (d : String) :
    List SubSt → Bool → List Bool → List SubSt × Bool × List Bool
  | [], visNow, log => ([], visNow, log)
  | sub :: rest, visNow, log =>
    match stepSub allB env d sub with
    | (sub', some b) =>
      let (rest', v', log') := processSubs allB env d rest b (log ++ [b])
      (sub' :: rest', v', log')
    | (sub', none) =>
      let (rest', v', log') := processSubs allB env d rest visNow log
      (sub' :: rest', v', log')

/-- One step of the network: dependency `d`'s `_value` is assigned and its
`valueChanges` emits. -/
def stepEmit (st : NetSt) (d : String) (v : JSVal) : NetSt :=
  let env' := setVal st.env d v
  let processed := processSubs st.allB env' d st.subs st.visible st.visLog
  { st with
      env := env'
      subs := processed.1
      visible := processed.2.1
      visLog := processed.2.2 }

/-- Wiring one branch at bind time: every `BehaviorSubject` input replays
its current value on subscription, so each `and_d` caches its initial
conjunct and the branch's `combineLatest` emits exactly once; the first
emission always passes `distinctUntilChanged` and reaches `setVisible`. -/
def initSub (allB : List Branch) (env : DepEnv) (useChk : Bool) (branch : Branch) :
    SubSt × Bool :=
  let caches := branch.map (recomputeEntry allB useChk env)
  let out := caches.any id
  ({ entries := branch, useChk := useChk, caches := caches, lastEmitted := some out }, out)

/-- Iterate `for (const visibleIf of visibleIfOf)` (lines 194-250): an empty
object branch is an unconditional `setVisible(false)` (lines 195-196); a
non-empty branch is wired and delivers its initial emission. -/
def bindSubs (allB : List Branch) (env : DepEnv) (useChk : Bool) :
    List Branch → Bool → List Bool → List SubSt × Bool × List Bool
  | [], visNow, log => ([], visNow, log)
  | branch :: rest, _visNow, log =>
    if branch.isEmpty then
      bindSubs allB env useChk rest false (log ++ [false])
    else
      let (sub, out) := initSub allB env useChk branch
      let (rest', v', log') := bindSubs allB env useChk rest out (log ++ [out])
      (sub :: rest', v', log')

/-- The shape of the `visibleIf` clause: `oneOf` composite, `allOf`
composite (lines 191-253), or the flat map handled by `_bindVisibility`'s
own body (lines 259-293). -/
inductive VisibleIf where
  | vOneOf (branches : List Branch)
  | vAllOf (branches : List Branch)
  | vFlat (branch : Branch)

/-- Binding the whole clause: `_visible` starts `true` (line 14); for
`allOf` clauses `_chk` closes over the full branch list
(`this.schema.visibleIf.allOf`, line 216); every dependency path is assumed
resolvable (an unresolvable one is skipped with a console warning, lines
238-240, and is exercised by no claim). -/
def bindNetwork (cfg : VisibleIf) (env : DepEnv) : NetSt :=
  match cfg with
  | VisibleIf.vOneOf branches =>
    let r := bindSubs [] env false branches true []
    { allB := [], subs := r.1, visible := r.2.1, visLog := r.2.2, env := env }
  | VisibleIf.vAllOf branches =>
    let r := bindSubs branches env true branches true []
    { allB := branches, subs := r.1, visible := r.2.1, visLog := r.2.2, env := env }
  | VisibleIf.vFlat branch =>
    let r := bindSubs [] env false [branch] true []
    { allB := [], subs := r.1, visible := r.2.1, visLog := r.2.2, env := env }

/-! ### Helper lemmas about the network semantics -/

theorem envVal_setVal (env : DepEnv) (d : String) (v : JSVal) :
    envVal (setVal env d v) d = v := by
  unfold envVal setVal
  rw [List.find?_cons_of_pos _ (by simp)]

theorem envVis_setVal (env : DepEnv) (d d' : String) (v : JSVal) :
    envVis (setVal env d v) d' = envVis env d' := rfl

theorem processSubs_nil (allB : List Branch) (env : DepEnv) (d : String)
    (visNow : Bool) (log : List Bool) :
    processSubs allB env d [] visNow log = ([], visNow, log) := rfl

theorem processSubs_cons_none (allB : List Branch) (env : DepEnv) (d : String)
    (sub sub' : SubSt) (rest : List SubSt) (visNow : Bool) (log : List Bool)
    (h : stepSub allB env d sub = (sub', none)) :
    processSubs allB env d (sub :: rest) visNow log
      = (sub' :: (processSubs allB env d rest visNow log).1,
          (processSubs allB env d rest visNow log).2) := by
  simp [processSubs, h]

theorem processSubs_cons_some (allB : List Branch) (env : DepEnv) (d : String)
    (sub sub' : SubSt) (b : Bool) (rest : List SubSt) (visNow : Bool) (log : List Bool)
    (h : stepSub allB env d sub = (sub', some b)) :
    processSubs allB env d (sub :: rest) visNow log
      = (sub' :: (processSubs allB env d rest b (log ++ [b])).1,
          (processSubs allB env d rest b (log ++ [b])).2) := by
  simp [processSubs, h]

theorem stepSub_unaffected (allB : List Branch) (env : DepEnv) (d : String) (sub : SubSt)
    (haff : subAffected d sub = false) :
    stepSub allB env d sub = (sub, none) := by
  simp [stepSub, haff]

theorem stepSub_emit (allB : List Branch) (env : DepEnv) (d : String) (sub : SubSt)
    (haff : subAffected d sub = true)
    (hne : sub.lastEmitted ≠ some (subOut allB env d sub)) :
    stepSub allB env d sub
      = ({ sub with
            caches := recomputeCaches allB env d sub,
            lastEmitted := some (subOut allB env d sub) },
          some (subOut allB env d sub)) := by
  simp only [stepSub, haff, if_true, subOut] at hne ⊢
  rw [if_neg hne]

theorem stepSub_suppressed (allB : List Branch) (env : DepEnv) (d : String) (sub : SubSt)
    (haff : subAffected d sub = true)
    (heq : sub.lastEmitted = some (subOut allB env d sub)) :
    stepSub allB env d sub
      = ({ sub with caches := recomputeCaches allB env d sub }, none) := by
  simp only [stepSub, haff, if_true, subOut] at heq ⊢
  rw [if_pos heq]

/-! ### C9: deduplication -/

/-- **C9.** A recomputation pass in which every affected branch subscription
recomputes exactly the boolean it last forwarded produces no `setVisible`
call at all: the visibility stream gets no notification and `_visible` is
unchanged.  This is `distinctUntilChanged` (lines 246, 289): of two
consecutive recomputations of a bound visibility expression yielding the
same boolean, only the first can notify. -/
theorem visibility_recompute_deduplicated (st : NetSt) (d : String) (v : JSVal)
    (h : ∀ sub ∈ st.subs, subAffected d sub = true →
          sub.lastEmitted = some (subOut st.allB (setVal st.env d v) d sub)) :
    (stepEmit st d v).visLog = st.visLog ∧ (stepEmit st d v).visible = st.visible := by
  have key : ∀ (subs : List SubSt) (visNow : Bool) (log : List Bool),
      (∀ sub ∈ subs, subAffected d sub = true →
        sub.lastEmitted = some (subOut st.allB (setVal st.env d v) d sub)) →
      (processSubs st.allB (setVal st.env d v) d subs visNow log).2 = (visNow, log) := by
    intro subs
    induction subs with
    | nil => intro visNow log _; rfl
    | cons sub rest ih =>
      intro visNow log hh
      by_cases haff : subAffected d sub
      · rw [processSubs_cons_none _ _ _ _ _ _ _ _
            (stepSub_suppressed _ _ _ _ haff (hh sub (by simp) haff))]
        exact ih visNow log fun s hs ha => hh s (by simp [hs]) ha
      · rw [processSubs_cons_none _ _ _ _ _ _ _ _
            (stepSub_unaffected _ _ _ _ (by simpa using haff))]
        exact ih visNow log fun s hs ha => hh s (by simp [hs]) ha
  have := key st.subs st.visible st.visLog h
  constructor
  · show (processSubs st.allB (setVal st.env d v) d st.subs st.visible st.visLog).2.2 = st.visLog
    rw [this]
  · show (processSubs st.allB (setVal st.env d v) d st.subs st.visible st.visLog).2.1 = st.visible
    rw [this]

/-- Concrete flat clause `{"a": ["x"]}` with `a = "x"` already at bind
time. -/
def flatExample : VisibleIf := VisibleIf.vFlat [("a", [JSVal.vStr "x"])]

def envF : DepEnv := { values := [("a", JSVal.vStr "x")], vis := [] }

/-- Witness for C9: after binding, `a` re-emits the value `"x"`; the
expression recomputes to `true` again and the visibility stream stays at the
single bind-time notification. -/
theorem visibility_recompute_deduplicated_witness :
    (stepEmit (bindNetwork flatExample envF) "a" (JSVal.vStr "x")).visLog
        = (bindNetwork flatExample envF).visLog
      ∧ (stepEmit (bindNetwork flatExample envF) "a" (JSVal.vStr "x")).visible
        = (bindNetwork flatExample envF).visible :=
  visibility_recompute_deduplicated (bindNetwork flatExample envF) "a" (JSVal.vStr "x")
    (by decide)

/-! ### C2: `oneOf` branch semantics -/

/-- The visibility value the claim asserts for the `oneOf` clause
`[{"a": ["x"]}, {"b": ["y"]}]`, stated from the spec's words: branch `a`
matches and is visible, or branch `b` matches and is visible. -/
def claimedOneOfVisible (env : DepEnv) : Bool :=
  (jsStrictEq (envVal env "a") (JSVal.vStr "x") && envVis env "a")
    || (jsStrictEq (envVal env "b") (JSVal.vStr "y") && envVis env "b")

/-- The clause of the claim: `oneOf` with branches `[{"a": ["x"]},
{"b": ["y"]}]`. -/
def oneOfExample : VisibleIf :=
  VisibleIf.vOneOf [[("a", [JSVal.vStr "x"])], [("b", [JSVal.vStr "y"])]]

/-- Environment at bind time: both dependencies still hold their initial
`null` value and are visible. -/
def env0 : DepEnv := { values := [], vis := [] }

/-- The run refuting C2: bind, then `a := "x"`, `b := "y"`, `b := "z"`. -/
def c2state : NetSt :=
  stepEmit (stepEmit (stepEmit (bindNetwork oneOfExample env0) "a" (JSVal.vStr "x"))
    "b" (JSVal.vStr "y")) "b" (JSVal.vStr "z")

/-- **C2, counterexample.** After the run `a := "x"; b := "y"; b := "z"` the
property is invisible although branch `a` still matches (`a = "x"`, `a`
visible): the recomputed boolean is not the OR of the branches. -/
theorem oneOf_branches_not_or : c2state.visible = false ∧ claimedOneOfVisible c2state.env = true := by
  decide

/-- **C2, amended.** Each `oneOf` branch is an independent subscription
driving `setVisible` (lines 244-248 run once per branch): with branches
`[{"a": xs}, {"b": ys}]`, an emission of `b` whose branch conjunct (value
membership AND `b`'s visibility) differs from that branch's previously
forwarded boolean sets the property's visibility to exactly that conjunct —
branch `a` contributes nothing — and appends it to the visibility stream.
Visibility thus tracks the most recently changed branch, not the OR of the
branches. -/
theorem oneOf_branch_last_writer (st : NetSt) (s1 s2 : SubSt) (xs ys : List JSVal)
    (v : JSVal) (l c1 : Bool)
    (h1 : st.subs = [s1, s2])
    (h2 : s1.entries = [("a", xs)])
    (h3 : s2.entries = [("b", ys)])
    (h4 : s2.caches = [c1])
    (h5 : s2.useChk = false)
    (h6 : s2.lastEmitted = some l)
    (h7 : l ≠ (memberCheck ys v && envVis st.env "b")) :
    (stepEmit st "b" v).visible = (memberCheck ys v && envVis st.env "b")
      ∧ (stepEmit st "b" v).visLog
          = st.visLog ++ [memberCheck ys v && envVis st.env "b"] := by
  have haff1 : subAffected "b" s1 = false := by
    simp [subAffected, h2]
  have haff2 : subAffected "b" s2 = true := by
    simp [subAffected, h3]
  have hout : subOut st.allB (setVal st.env "b" v) "b" s2
      = (memberCheck ys v && envVis st.env "b") := by
    simp [subOut, recomputeCaches, h3, h4, h5, recomputeEntry,
      envVal_setVal, envVis_setVal]
  have hne : s2.lastEmitted ≠ some (subOut st.allB (setVal st.env "b" v) "b" s2) := by
    rw [h6, hout]
    intro hc
    exact h7 (Option.some.injEq _ _ ▸ hc)
  have hse := stepSub_emit st.allB (setVal st.env "b" v) "b" s2 haff2 hne
  rw [hout] at hse
  constructor
  · show (processSubs st.allB (setVal st.env "b" v) "b" st.subs st.visible st.visLog).2.1
        = (memberCheck ys v && envVis st.env "b")
    rw [h1, processSubs_cons_none _ _ _ _ _ _ _ _ (stepSub_unaffected _ _ _ _ haff1),
      processSubs_cons_some _ _ _ _ _ _ _ _ _ hse, processSubs_nil]
  · show (processSubs st.allB (setVal st.env "b" v) "b" st.subs st.visible st.visLog).2.2
        = st.visLog ++ [memberCheck ys v && envVis st.env "b"]
    rw [h1, processSubs_cons_none _ _ _ _ _ _ _ _ (stepSub_unaffected _ _ _ _ haff1),
      processSubs_cons_some _ _ _ _ _ _ _ _ _ hse, processSubs_nil]

/-- The two subscriptions the bind of `oneOfExample` over `env0` creates. -/
def subA : SubSt :=
  { entries := [("a", [JSVal.vStr "x"])], useChk := false,
    caches := [false], lastEmitted := some false }

def subB : SubSt :=
  { entries := [("b", [JSVal.vStr "y"])], useChk := false,
    caches := [false], lastEmitted := some false }

/-- Witness for the amended C2: from the bind-time state, `b := "y"` makes
branch `b`'s conjunct `true`, so the property becomes visible with one new
notification. -/
theorem oneOf_branch_last_writer_witness :
    (stepEmit (bindNetwork oneOfExample env0) "b" (JSVal.vStr "y")).visible
        = (memberCheck [JSVal.vStr "y"] (JSVal.vStr "y")
            && envVis (bindNetwork oneOfExample env0).env "b")
      ∧ (stepEmit (bindNetwork oneOfExample env0) "b" (JSVal.vStr "y")).visLog
          = (bindNetwork oneOfExample env0).visLog
              ++ [memberCheck [JSVal.vStr "y"] (JSVal.vStr "y")
                  && envVis (bindNetwork oneOfExample env0).env "b"] :=
  oneOf_branch_last_writer (bindNetwork oneOfExample env0) subA subB
    [JSVal.vStr "x"] [JSVal.vStr "y"] (JSVal.vStr "y") false false
    rfl rfl rfl rfl rfl rfl (by decide)

/-! ### C4: `allOf` branch semantics -/

/-- The visibility value the claim asserts for the `allOf` clause
`[{"a": ["x"], "b": ["y"]}]`, stated from the spec's words: both
dependencies hold their required value. -/
def claimedAllOfVisible (env : DepEnv) : Bool :=
  jsStrictEq (envVal env "a") (JSVal.vStr "x")
    && jsStrictEq (envVal env "b") (JSVal.vStr "y")

/-- The clause of the claim: `allOf` with the single branch
`{"a": ["x"], "b": ["y"]}`. -/
def allOfExample : VisibleIf :=
  VisibleIf.vAllOf [[("a", [JSVal.vStr "x"]), ("b", [JSVal.vStr "y"])]]

/-- Environment at bind time: both dependencies already match and are
visible. -/
def env1 : DepEnv :=
  { values := [("a", JSVal.vStr "x"), ("b", JSVal.vStr "y")], vis := [] }

/-- The run refuting C4: bind with both values matching, then `a := "z"`. -/
def c4state : NetSt := stepEmit (bindNetwork allOfExample env1) "a" (JSVal.vStr "z")

/-- **C4, counterexample.** After `a := "z"` the conjunction `a = "x" ∧
b = "y"` is false, yet the property stays visible: `a`'s `and` stream
recomputes to `false`, but the branch's outer `combineLatest` still holds
`b`'s cached conjunct (computed when `b` last emitted, when the conjunction
held), and `false OR true` keeps the emitted value `true` — deduplication
then suppresses even the notification. -/
theorem allOf_stale_cache_keeps_visible :
    c4state.visible = true ∧ claimedAllOfVisible c4state.env = false := by
  decide

/-- A helper: after dependency `d` emits, the recomputed `and` caches of a
branch containing `d` contain `true` whenever the recomputation of `d`'s
entries yields `true`. -/
theorem recompute_any_true (g : String × List JSVal → Bool) (d : String) :
    ∀ (es : Branch) (cs : List Bool), cs.length = es.length →
      (∃ e ∈ es, e.1 = d) → (∀ e ∈ es, e.1 = d → g e = true) →
      (List.zipWith (fun e c => if e.1 = d then g e else c) es cs).any id = true := by
  intro es
  induction es with
  | nil =>
    intro cs _ hex _
    simp at hex
  | cons e rest ih =>
    intro cs hlen hex hval
    cases cs with
    | nil => simp at hlen
    | cons c crest =>
      simp only [List.zipWith_cons_cons, List.any_cons, Bool.or_eq_true, id]
      by_cases hd : e.1 = d
      · left
        rw [if_pos hd]
        exact hval e (by simp) hd
      · right
        rcases hex with ⟨e', he', hd'⟩
        rcases List.mem_cons.mp he' with rfl | hmem
        · exact absurd hd' hd
        · exact ih crest (by simpa using hlen) ⟨e', hmem, hd'⟩
            fun x hx h => hval x (by simp [hx]) h

/-- **C4, amended.** The sound direction survives: for the single-branch
`allOf` clause, after an emission of a visible dependency `d` of the branch,
if the full conjunction over the *current* values (`_chk`) holds, the
property is visible.  The claimed converse fails (see the counterexample):
when a change breaks the conjunction, the other dependencies' `and` conjuncts
keep the value cached at their own last emission, so the OR that
`combineLatest` emits can stay `true` and the property stays visible. -/
theorem allOf_conjunction_sound (st : NetSt) (s : SubSt) (d : String) (v : JSVal)
    (hsubs : st.subs = [s])
    (hchk : s.useChk = true)
    (hlen : s.caches.length = s.entries.length)
    (hmem : ∃ e ∈ s.entries, e.1 = d)
    (hall : chkAll st.allB (setVal st.env d v) = true)
    (hvisd : envVis st.env d = true)
    (hinv : s.lastEmitted = some st.visible) :
    (stepEmit st d v).visible = true := by
  have haff : subAffected d s = true := by
    rcases hmem with ⟨e, he, hd⟩
    simp only [subAffected, List.any_eq_true]
    exact ⟨e, he, by simp [hd]⟩
  have hout : subOut st.allB (setVal st.env d v) d s = true := by
    unfold subOut recomputeCaches
    refine recompute_any_true _ d s.entries s.caches hlen hmem ?_
    intro e he hd
    rw [recomputeEntry, hchk, if_pos rfl, hall, hd, envVis_setVal, hvisd]
    rfl
  by_cases hvis : st.visible = true
  · have hsup := stepSub_suppressed st.allB (setVal st.env d v) d s haff
      (by rw [hinv, hout, hvis])
    show (processSubs st.allB (setVal st.env d v) d st.subs st.visible st.visLog).2.1 = true
    rw [hsubs, processSubs_cons_none _ _ _ _ _ _ _ _ hsup, processSubs_nil]
    exact hvis
  · have hne : s.lastEmitted ≠ some (subOut st.allB (setVal st.env d v) d s) := by
      rw [hinv, hout]
      intro hc
      exact hvis (Option.some.injEq _ _ ▸ hc)
    have hse := stepSub_emit st.allB (setVal st.env d v) d s haff hne
    rw [hout] at hse
    show (processSubs st.allB (setVal st.env d v) d st.subs st.visible st.visLog).2.1 = true
    rw [hsubs, processSubs_cons_some _ _ _ _ _ _ _ _ _ hse, processSubs_nil]

/-- The single subscription the bind of `allOfExample` over `env1`
creates. -/
def subAB : SubSt :=
  { entries := [("a", [JSVal.vStr "x"]), ("b", [JSVal.vStr "y"])], useChk := true,
    caches := [true, true], lastEmitted := some true }

/-- Witness for the amended C4: with both values matching, `a` re-emits
`"x"`; the conjunction holds and the property is (remains) visible. -/
theorem allOf_conjunction_sound_witness :
    (stepEmit (bindNetwork allOfExample env1) "a" (JSVal.vStr "x")).visible = true :=
  allOf_conjunction_sound (bindNetwork allOfExample env1) subAB "a" (JSVal.vStr "x")
    rfl rfl rfl ⟨("a", [JSVal.vStr "x"]), by simp [subAB], rfl⟩ (by decide) (by decide) rfl

end FormPropertySpec
